import Mathlib

/-!
Verification development for the liburkel-node native binding.

The definitions below are shallow embeddings of the C sources:

* `src/deps/liburkel/src/bits.c` — the `urkel_bits_*` family operating on
  compressed bit paths (`urkel_bits_t`, a `size` plus a 32-byte `data`
  array).  Bytes are modelled as `Nat` values below 256; the byte array is
  a `List Nat` of length 32.  Machine arithmetic that can truncate is made
  explicit with `% 256` (the `urkel_write8` cast) and a 64-bit mask (the
  `size &= ~0x80` step of `urkel_bits_read`, where `size` is a `size_t`).
* `src/src/common.c`, `src/src/util.c`, `src/src/tree.c`,
  `src/src/nurkel.c`, `src/src/transaction.c` — the nurkel binding layer:
  the error-name table, the argument-validation and result-shaping logic of
  the synchronous and asynchronous `verify` and `get` entry points, and the
  iterator's serial-`next` discipline.  N-API plumbing (promise creation,
  buffer marshalling) is abstracted to the decisions it makes: which
  validation failures throw, and what value or error a call produces.

Helpers whose C definitions live in headers that are not part of this
snapshot (`bits.h` / liburkel's `util.h`) are modelled from the spec and
say so in their doc comments.
-/

/-! ## Constants (`src/src/common.h`, liburkel's `urkel.h`) -/

def URKEL_KEY_BITS : Nat := 256

def URKEL_HASH_SIZE : Nat := 32

def URKEL_VALUE_SIZE : Nat := 1023

def URKEL_PROOF_SIZE : Nat := 17957

/-- Error code of `URKEL_ENOTFOUND`.  Liburkel's `urkel.h` is not part of
the snapshot; the value 8 is fixed by `src/src/common.c`, whose table
`urkel_errors` places `"URKEL_ENOTFOUND"` at index 8 under the documented
convention "Errnos start with 1, 0 = everything's ok." -/
def URKEL_ENOTFOUND : Nat := 8

def URKEL_OK : Nat := 0

/-! ## BitPath (`urkel_bits_t`) -/

/-- `urkel_bits_t` from liburkel: a bit-path of `size` bits (at most 256)
stored in a fixed 32-byte array.  The array is modelled as a `List Nat`
whose entries are bytes (`< 256`); its length is 32 for every value built
by the operations below. -/
structure UrkelBits where
  size : Nat
  data : List Nat
deriving Repr, DecidableEq

/-- Structural validity of an `urkel_bits_t` value: the size bound checked
by the C `CHECK`s, a 32-byte `data` array, and byte-sized entries. -/
def UrkelBits.wf (b : UrkelBits) : Prop :=
  b.size ≤ URKEL_KEY_BITS ∧ b.data.length = 32 ∧ ∀ x ∈ b.data, x < 256

instance (b : UrkelBits) : Decidable b.wf := by
  unfold UrkelBits.wf; infer_instance

/-- Modelled from the spec: `urkel_get_bit(key, i)` lives in liburkel's
`util.h`, which is not in the snapshot.  The spec fixes "bit `i` is read at
`data[i/8]`, bit position `i%8`" and leaves the within-byte endianness
open; we fix the most-significant-bit-first convention
(`(key[i/8] >> (7 - i%8)) & 1`), consistently for every bit accessor. -/
def urkel_get_bit (key : List Nat) (i : Nat) : Nat :=
  (key.getD (i / 8) 0 >>> (7 - i % 8)) &&& 1

/-- Modelled from the spec: `urkel_bits_get(bits, i)` lives in `bits.h`,
which is not in the snapshot.  Same fixed convention as `urkel_get_bit`. -/
def urkel_bits_get (bits : UrkelBits) (i : Nat) : Nat :=
  (bits.data.getD (i / 8) 0 >>> (7 - i % 8)) &&& 1

/-- Modelled from the spec: `urkel_bits_set(bits, i, bit)` lives in
`bits.h`, which is not in the snapshot.  It deposits `bit & 1` at the same
position `urkel_bits_get` reads, or-ing it into the (zero-initialised)
byte. -/
def urkel_bits_set (bits : UrkelBits) (i : Nat) (bit : Nat) : UrkelBits :=
  ⟨bits.size,
   bits.data.set (i / 8)
     (bits.data.getD (i / 8) 0 ||| ((bit &&& 1) <<< (7 - i % 8)))⟩

/-- `urkel_bits_init` (bits.c:17): set `size`, zero the 32-byte array. -/
def urkel_bits_init (size : Nat) : UrkelBits :=
  ⟨size, List.replicate 32 0⟩

/-- The loop of `urkel_bits__count` (bits.c:41), with the iteration bound
`len` explicit: starting at `index` into `bits` and `depth` into `key`,
count initial positions where the two bits agree, stopping at the first
mismatch or after `len` steps. -/
def urkel_bits_count_loop (bits : UrkelBits) (key : List Nat) :
    Nat → Nat → Nat → Nat
  | _, _, 0 => 0
  | index, depth, len + 1 =>
    if urkel_bits_get bits index = urkel_get_bit key depth then
      urkel_bits_count_loop bits key (index + 1) (depth + 1) len + 1
    else
      0

/-- `urkel_bits__count` (bits.c:26): `len = min(bits.size - index,
URKEL_KEY_BITS - depth)` agreement-counting loop. -/
def urkel_bits__count (bits : UrkelBits) (index : Nat) (key : List Nat)
    (depth : Nat) : Nat :=
  urkel_bits_count_loop bits key index depth
    (min (bits.size - index) (URKEL_KEY_BITS - depth))

/-- `urkel_bits_count` (bits.c:53). -/
def urkel_bits_count (bits : UrkelBits) (key : List Nat) (depth : Nat) :
    Nat :=
  urkel_bits__count bits 0 key depth

/-- `urkel_bits_has` (bits.c:60): the C `int` result modelled as `Bool`. -/
def urkel_bits_has (bits : UrkelBits) (key : List Nat) (depth : Nat) :
    Bool :=
  urkel_bits_count bits key depth == bits.size

/-- `urkel_bits_slice` (bits.c:67): `out = init(end - start)`, then copy
bits `start..end` of the source to positions `0..end-start`. -/
def urkel_bits_slice (bits : UrkelBits) (start e : Nat) : UrkelBits :=
  (List.range (e - start)).foldl
    (fun out i => urkel_bits_set out i (urkel_bits_get bits (start + i)))
    (urkel_bits_init (e - start))

/-- `urkel_bits_split` (bits.c:83). -/
def urkel_bits_split (bits : UrkelBits) (index : Nat) :
    UrkelBits × UrkelBits :=
  (urkel_bits_slice bits 0 index,
   urkel_bits_slice bits (index + 1) bits.size)

/-- `urkel_bits_collide` (bits.c:92). -/
def urkel_bits_collide (bits : UrkelBits) (key : List Nat) (depth : Nat) :
    UrkelBits :=
  urkel_bits_slice bits depth (depth + urkel_bits__count bits depth key depth)

/-- `urkel_bits_join` (bits.c:102): `size = left.size + right.size + 1`;
`memcpy` the first `ceil(left.size/8)` bytes of `left` over the zeroed
array, set the branch bit at position `left.size`, then copy `right`'s
bits one by one after it. -/
def urkel_bits_join (left right : UrkelBits) (bit : Nat) : UrkelBits :=
  let bytes := (left.size + 7) / 8
  let out0 : UrkelBits :=
    ⟨left.size + right.size + 1,
     left.data.take bytes ++ List.replicate (32 - bytes) 0⟩
  let out1 := urkel_bits_set out0 left.size bit
  (List.range right.size).foldl
    (fun out j => urkel_bits_set out (left.size + 1 + j) (urkel_bits_get right j))
    out1

/-- `urkel_bits_size` (bits.c:121): encoded length of a bit path — one
size byte (two when `size >= 0x80`) plus `ceil(size/8)` data bytes. -/
def urkel_bits_size (bits : UrkelBits) : Nat :=
  (if bits.size ≥ 0x80 then 1 else 0) + 1 + (bits.size + 7) / 8

/-- `urkel_bits_write` (bits.c:136): emitted byte string.  `urkel_write8`
stores the low byte of its argument, hence the `% 256`. -/
def urkel_bits_write (bits : UrkelBits) : List Nat :=
  let bytes := (bits.size + 7) / 8
  (if bits.size ≥ 0x80 then [(0x80 ||| (bits.size >>> 8)) % 256] else [])
    ++ [bits.size % 256] ++ bits.data.take bytes

/-- The 64-bit value of `~(size_t)0x80`: all bits set except bit 7.  Used
by the `size &= ~0x80` step of `urkel_bits_read` (`size` is a `size_t`). -/
def NOT_0x80_64 : Nat := 2 ^ 64 - 129

/-- Tail of `urkel_bits_read` (bits.c:179-191) after the size prefix has
been decoded: reject `size > URKEL_KEY_BITS`, reject a short buffer,
otherwise copy `ceil(size/8)` bytes into the zeroed array.  Returns the
out-parameter together with the C `int` result. -/
def urkel_bits_read_tail (size : Nat) (rest : List Nat) :
    UrkelBits × Bool :=
  if size > URKEL_KEY_BITS then
    (urkel_bits_init 0, false)
  else
    let bytes := (size + 7) / 8
    if rest.length < bytes then
      (urkel_bits_init 0, false)
    else
      (⟨size, rest.take bytes ++ List.replicate (32 - bytes) 0⟩, true)

/-- `urkel_bits_read` (bits.c:151): the out-parameter is initialised empty
and only overwritten on the success path; the `Bool` is the C result. -/
def urkel_bits_read (data : List Nat) : UrkelBits × Bool :=
  match data with
  | [] => (urkel_bits_init 0, false)
  | b0 :: rest =>
    if b0 &&& 0x80 ≠ 0 then
      match rest with
      | [] => (urkel_bits_init 0, false)
      | b1 :: rest2 =>
        let size := ((b0 &&& NOT_0x80_64) <<< 8) ||| b1
        if size < 0x80 then
          (urkel_bits_init 0, false)
        else
          urkel_bits_read_tail size rest2
    else
      urkel_bits_read_tail b0 rest

/-! ## Byte-level helper lemmas -/

/-- A value below 128 has bit 7 clear. -/
theorem and_128_eq_zero_of_lt {b : Nat} (h : b < 128) : b &&& 128 = 0 := by
  have h7 : b.testBit 7 = false := Nat.testBit_lt_two_pow (by norm_num at h ⊢; omega)
  have := Nat.and_two_pow b 7
  rw [h7] at this
  simpa using this

/-- Masking with `0xFF` is reduction mod 256. -/
theorem and_255_eq_mod (n : Nat) : n &&& 255 = n % 256 := by
  have := Nat.and_pow_two_sub_one_eq_mod n 8
  norm_num at this
  exact this

/-- The first emitted byte of the two-byte size form needs no truncation
when `size ≤ 256`. -/
theorem first_size_byte_small {n : Nat} (h : n ≤ 256) :
    (128 ||| (n >>> 8)) % 256 = 128 ||| (n >>> 8) := by
  rw [Nat.shiftRight_eq_div_pow]
  rcases Nat.lt_or_ge n 256 with hlt | hge
  · rw [Nat.div_eq_of_lt hlt]
    decide
  · have : n = 256 := le_antisymm h hge
    subst this
    decide

/-- C2: for a bit path with `size ≤ 256`, `urkel_bits_write` emits the
two-byte size form `0x80 | (size >> 8)`, `size & 0xFF` when `size ≥ 128`
and the single byte `size` otherwise, followed by `ceil(size/8)` raw data
bytes, and `urkel_bits_size` is exactly the emitted length. -/
theorem bits_write_wire_format (p : UrkelBits) (hsz : p.size ≤ 256)
    (hlen : p.data.length = 32) :
    urkel_bits_write p =
      (if 128 ≤ p.size then [0x80 ||| (p.size >>> 8), p.size &&& 0xFF]
       else [p.size]) ++ p.data.take ((p.size + 7) / 8) ∧
    urkel_bits_size p = (urkel_bits_write p).length := by
  have hbytes : (p.size + 7) / 8 ≤ 32 := by omega
  constructor
  · unfold urkel_bits_write
    by_cases hc : 128 ≤ p.size
    · simp only [ge_iff_le, hc, if_pos, List.append_assoc, List.cons_append,
        List.nil_append]
      rw [first_size_byte_small hsz, and_255_eq_mod]
    · simp only [ge_iff_le, hc, if_neg, not_false_iff, List.nil_append,
        List.cons_append]
      rw [Nat.mod_eq_of_lt (by omega)]
  · unfold urkel_bits_size urkel_bits_write
    simp only [List.length_append, List.length_take, List.length_cons,
      List.length_nil, hlen]
    by_cases hc : 128 ≤ p.size
    · simp only [ge_iff_le, hc, if_pos, List.length_cons, List.length_nil]
      omega
    · simp only [ge_iff_le, hc, if_neg, not_false_iff, List.length_nil]
      omega

/-- Witness for `bits_write_wire_format` at a concrete 130-bit path. -/
theorem bits_write_wire_format_witness :
    ((⟨130, List.replicate 32 255⟩ : UrkelBits).size ≤ 256 ∧
      (⟨130, List.replicate 32 255⟩ : UrkelBits).data.length = 32) ∧
    (urkel_bits_write ⟨130, List.replicate 32 255⟩ =
      (if 128 ≤ (⟨130, List.replicate 32 255⟩ : UrkelBits).size then
        [0x80 ||| ((⟨130, List.replicate 32 255⟩ : UrkelBits).size >>> 8),
         (⟨130, List.replicate 32 255⟩ : UrkelBits).size &&& 0xFF]
       else [(⟨130, List.replicate 32 255⟩ : UrkelBits).size]) ++
        (⟨130, List.replicate 32 255⟩ : UrkelBits).data.take
          (((⟨130, List.replicate 32 255⟩ : UrkelBits).size + 7) / 8) ∧
     urkel_bits_size ⟨130, List.replicate 32 255⟩ =
       (urkel_bits_write ⟨130, List.replicate 32 255⟩).length) :=
  ⟨⟨by norm_num, by simp⟩,
   bits_write_wire_format ⟨130, List.replicate 32 255⟩ (by norm_num) (by simp)⟩

set_option maxRecDepth 10000 in
/-- A byte all of whose eight bit positions read zero is zero. -/
theorem byte_eq_zero_aux : ∀ b < 256, (∀ m < 8, (b >>> m) &&& 1 = 0) → b = 0 := by
  decide

/-- When every bit of `p` at positions `≥ p.size` is zero, every byte of
`p.data` from `ceil(p.size/8)` on is zero. -/
theorem data_byte_zero_of_trailing_zero (p : UrkelBits)
    (hlen : p.data.length = 32) (hbyte : ∀ x ∈ p.data, x < 256)
    (htz : ∀ i, i < 256 → p.size ≤ i → urkel_bits_get p i = 0) :
    ∀ j, (p.size + 7) / 8 ≤ j → j < 32 → p.data.getD j 0 = 0 := by
  intro j hj hj32
  have hjlen : j < p.data.length := by omega
  have hmem : p.data.getD j 0 ∈ p.data := by
    rw [List.getD_eq_getElem p.data 0 hjlen]
    exact List.getElem_mem hjlen
  apply byte_eq_zero_aux (p.data.getD j 0) (hbyte _ hmem)
  intro m hm
  have hi := htz (8 * j + (7 - m)) (by omega) (by omega)
  unfold urkel_bits_get at hi
  have hdiv : (8 * j + (7 - m)) / 8 = j := by omega
  have hmod : 7 - (8 * j + (7 - m)) % 8 = m := by omega
  rw [hdiv, hmod] at hi
  exact hi

/-- Dropping the encoded bytes of a trailing-zero path leaves only zero
bytes, so re-appending zeros reproduces the array. -/
theorem take_append_zeros_eq_self {d : List Nat} (hlen : d.length = 32)
    {n : Nat} (hn : n ≤ 32) (hz : ∀ j, n ≤ j → j < 32 → d.getD j 0 = 0) :
    d.take n ++ List.replicate (32 - n) 0 = d := by
  have hdrop : d.drop n = List.replicate (32 - n) 0 := by
    apply List.ext_getElem
    · simp [hlen]
    · intro i h1 h2
      rw [List.getElem_drop, List.getElem_replicate]
      have hlt : n + i < d.length := by
        rw [List.length_drop, hlen] at h1
        omega
      rw [← List.getD_eq_getElem d 0 hlt]
      exact hz (n + i) (by omega) (by omega)
  rw [← hdrop, List.take_append_drop]

/-- The tail of `urkel_bits_read` succeeds on exactly the bytes
`urkel_bits_write` emitted and reconstructs the original array. -/
theorem bits_read_tail_roundtrip (s : Nat) (d : List Nat) (hs : s ≤ 256)
    (hlen : d.length = 32)
    (hz : ∀ j, (s + 7) / 8 ≤ j → j < 32 → d.getD j 0 = 0) :
    urkel_bits_read_tail s (d.take ((s + 7) / 8)) = (⟨s, d⟩, true) := by
  unfold urkel_bits_read_tail URKEL_KEY_BITS
  have hb : (s + 7) / 8 ≤ 32 := by omega
  have hlt : (d.take ((s + 7) / 8)).length = (s + 7) / 8 := by
    rw [List.length_take]
    omega
  rw [if_neg (by omega)]
  simp only [hlt, Nat.lt_irrefl, if_neg, not_false_iff]
  rw [List.take_take, min_self, take_append_zeros_eq_self hlen hb hz]

/-- C1: decoding the bytes produced by `urkel_bits_write` with
`urkel_bits_read` succeeds and returns the original path, for every
well-formed path whose unused trailing bits are zero. -/
theorem bits_read_write_roundtrip (p : UrkelBits) (hwf : p.wf)
    (htz : ∀ i, i < 256 → p.size ≤ i → urkel_bits_get p i = 0) :
    urkel_bits_read (urkel_bits_write p) = (p, true) := by
  obtain ⟨hsz, hlen, hbyte⟩ := hwf
  unfold URKEL_KEY_BITS at hsz
  have hz := data_byte_zero_of_trailing_zero p hlen hbyte htz
  obtain ⟨s, d⟩ := p
  simp only at hsz hlen hbyte hz ⊢
  unfold urkel_bits_write
  simp only
  by_cases hc : 128 ≤ s
  · rcases Nat.lt_or_ge s 256 with hlt | hge
    · have h1 : (0x80 ||| (s >>> 8)) % 256 = 128 := by
        rw [Nat.shiftRight_eq_div_pow]
        norm_num [Nat.div_eq_of_lt hlt]
      have h2 : s % 256 = s := Nat.mod_eq_of_lt hlt
      rw [if_pos (by omega : s ≥ 0x80), h1, h2]
      show urkel_bits_read (128 :: s :: d.take ((s + 7) / 8)) = _
      simp only [urkel_bits_read]
      rw [if_pos (by decide : (128 : Nat) &&& 0x80 ≠ 0)]
      have h3 : ((128 &&& NOT_0x80_64) <<< 8) ||| s = s := by
        have h0 : (128 : Nat) &&& NOT_0x80_64 = 0 := by decide
        rw [h0, Nat.zero_shiftLeft, Nat.zero_or]
      simp only [h3]
      rw [if_neg (by omega)]
      exact bits_read_tail_roundtrip s d hsz hlen hz
    · have hseq : s = 256 := by omega
      subst hseq
      have h1 : (0x80 ||| ((256 : Nat) >>> 8)) % 256 = 129 := by decide
      have h2 : (256 : Nat) % 256 = 0 := by decide
      rw [if_pos (by omega : (256 : Nat) ≥ 0x80), h1, h2]
      show urkel_bits_read (129 :: 0 :: d.take ((256 + 7) / 8)) = _
      simp only [urkel_bits_read]
      rw [if_pos (by decide : (129 : Nat) &&& 0x80 ≠ 0)]
      have h3 : ((129 &&& NOT_0x80_64) <<< 8) ||| 0 = 256 := by decide
      simp only [h3]
      rw [if_neg (by omega)]
      exact bits_read_tail_roundtrip 256 d (by omega) hlen hz
  · have h2 : s % 256 = s := Nat.mod_eq_of_lt (by omega)
    rw [if_neg (by omega : ¬ s ≥ 0x80), h2]
    show urkel_bits_read (s :: d.take ((s + 7) / 8)) = _
    simp only [urkel_bits_read]
    have hno : ¬ (s &&& 0x80 ≠ 0) := by
      rw [and_128_eq_zero_of_lt (show s < 128 by omega)]
      simp
    rw [if_neg hno]
    exact bits_read_tail_roundtrip s d hsz hlen hz

set_option maxRecDepth 10000 in
/-- Witness for `bits_read_write_roundtrip` at a concrete 5-bit path. -/
theorem bits_read_write_roundtrip_witness :
    ((⟨5, 0xA8 :: List.replicate 31 0⟩ : UrkelBits).wf ∧
      (∀ i, i < 256 → (⟨5, 0xA8 :: List.replicate 31 0⟩ : UrkelBits).size ≤ i →
        urkel_bits_get ⟨5, 0xA8 :: List.replicate 31 0⟩ i = 0)) ∧
    urkel_bits_read (urkel_bits_write ⟨5, 0xA8 :: List.replicate 31 0⟩) =
      (⟨5, 0xA8 :: List.replicate 31 0⟩, true) :=
  ⟨⟨by decide, by decide⟩,
   bits_read_write_roundtrip ⟨5, 0xA8 :: List.replicate 31 0⟩ (by decide)
     (by decide)⟩

/-! ## C3: failure conditions of `urkel_bits_read` -/

/-- The size recovered by the two-byte form of `urkel_bits_read`
(bits.c:164-171): `size &= ~0x80; size <<= 8; size |= read8(data)`. -/
def bits_two_byte_size (b0 b1 : Nat) : Nat :=
  ((b0 &&& NOT_0x80_64) <<< 8) ||| b1

/-- The size-prefix decoding step of `urkel_bits_read`: the decoded size
and the remaining bytes, or `none` when the buffer ends inside the
prefix. -/
def bits_read_size_header : List Nat → Option (Nat × List Nat)
  | [] => none
  | b0 :: rest =>
    if b0 &&& 0x80 ≠ 0 then
      match rest with
      | [] => none
      | b1 :: rest2 => some (bits_two_byte_size b0 b1, rest2)
    else
      some (b0, rest)

/-- The failure conditions exactly as the claim enumerates them: an empty
buffer, a two-byte form decoding a size below 128, a decoded size above
256, or fewer than `ceil(size/8)` bytes remaining after the size prefix.
This definition follows the claim's words, to be compared against
`urkel_bits_read`. -/
def bits_read_fail_conditions (buf : List Nat) : Prop :=
  buf = [] ∨
  (∃ b0 b1 rest, buf = b0 :: b1 :: rest ∧ b0 &&& 0x80 ≠ 0 ∧
    bits_two_byte_size b0 b1 < 128) ∨
  (∃ sz rest, bits_read_size_header buf = some (sz, rest) ∧ sz > 256) ∨
  (∃ sz rest, bits_read_size_header buf = some (sz, rest) ∧
    rest.length < (sz + 7) / 8)

/-- Failure behaviour of `urkel_bits_read_tail`, with the failed
out-parameter left empty. -/
theorem bits_read_tail_fail_iff (sz : Nat) (rest : List Nat) :
    ((urkel_bits_read_tail sz rest).2 = false ↔
      sz > 256 ∨ rest.length < (sz + 7) / 8) ∧
    ((urkel_bits_read_tail sz rest).2 = false →
      (urkel_bits_read_tail sz rest).1 = urkel_bits_init 0) := by
  unfold urkel_bits_read_tail URKEL_KEY_BITS
  by_cases h1 : sz > 256
  · simp [h1]
  · rw [if_neg h1]
    by_cases h2 : rest.length < (sz + 7) / 8
    · simp [h1, h2]
    · simp [h1, h2]

/-- Counterexample to C3 as stated: the single byte `0x80` announces the
two-byte size form but ends the buffer, so `urkel_bits_read` fails, yet
none of the claim's four enumerated conditions holds for it. -/
theorem bits_read_fail_conditions_incomplete :
    (urkel_bits_read [0x80]).2 = false ∧
      ¬ bits_read_fail_conditions [0x80] := by
  constructor
  · rfl
  · intro h
    rcases h with h | ⟨b0, b1, rest, habs, _⟩ | ⟨sz, rest, hhdr, _⟩ |
      ⟨sz, rest, hhdr, _⟩
    · exact List.cons_ne_nil _ _ h
    · simp at habs
    · rw [show bits_read_size_header [0x80] = none from rfl] at hhdr
      exact Option.noConfusion hhdr
    · rw [show bits_read_size_header [0x80] = none from rfl] at hhdr
      exact Option.noConfusion hhdr

/-- C3 as amended: `urkel_bits_read` fails exactly on the claim's four
conditions or on a single-byte buffer whose high bit announces the
(truncated) two-byte size form; every failure leaves the out-parameter
empty. -/
theorem bits_read_failure_characterization (buf : List Nat) :
    ((urkel_bits_read buf).2 = false ↔
      (bits_read_fail_conditions buf ∨
        ∃ b0, buf = [b0] ∧ b0 &&& 0x80 ≠ 0)) ∧
    ((urkel_bits_read buf).2 = false →
      (urkel_bits_read buf).1 = urkel_bits_init 0) := by
  match buf with
  | [] =>
    constructor
    · simp [urkel_bits_read, bits_read_fail_conditions]
    · intro _
      rfl
  | [b0] =>
    by_cases hb : b0 &&& 0x80 ≠ 0
    · constructor
      · simp only [urkel_bits_read, if_pos hb]
        constructor
        · intro _
          exact Or.inr ⟨b0, rfl, hb⟩
        · intro _
          trivial
      · simp only [urkel_bits_read, if_pos hb]
        intro _
        trivial
    · have hread : urkel_bits_read [b0] = urkel_bits_read_tail b0 [] := by
        simp only [urkel_bits_read, if_neg hb]
      have htail := bits_read_tail_fail_iff b0 []
      constructor
      · rw [hread, htail.1]
        constructor
        · intro h
          refine Or.inl (Or.inr (Or.inr ?_))
          have hhdr : bits_read_size_header [b0] = some (b0, []) := by
            simp only [bits_read_size_header, if_neg hb]
          rcases h with h | h
          · exact Or.inl ⟨b0, [], hhdr, h⟩
          · exact Or.inr ⟨b0, [], hhdr, h⟩
        · intro h
          rcases h with (h | ⟨c0, c1, rest, habs, _⟩ | ⟨sz, rest, hhdr, hgt⟩ |
              ⟨sz, rest, hhdr, hlt⟩) | ⟨c0, heq, hc⟩
          · exact absurd h (List.cons_ne_nil _ _)
          · simp at habs
          · simp only [bits_read_size_header, if_neg hb,
              Option.some.injEq, Prod.mk.injEq] at hhdr
            obtain ⟨h1, h2⟩ := hhdr
            subst h1
            exact Or.inl hgt
          · simp only [bits_read_size_header, if_neg hb,
              Option.some.injEq, Prod.mk.injEq] at hhdr
            obtain ⟨h1, h2⟩ := hhdr
            subst h1
            subst h2
            exact Or.inr hlt
          · obtain rfl : b0 = c0 := by
              simpa using heq
            exact absurd hc hb
      · rw [hread]
        exact htail.2
  | b0 :: b1 :: rest =>
    have hne : ∀ c0 : Nat, b0 :: b1 :: rest ≠ [c0] := by
      intro c0 h
      simp at h
    by_cases hb : b0 &&& 0x80 ≠ 0
    · have hhdr : bits_read_size_header (b0 :: b1 :: rest) =
          some (bits_two_byte_size b0 b1, rest) := by
        simp only [bits_read_size_header, if_pos hb]
      by_cases hsmall : bits_two_byte_size b0 b1 < 0x80
      · have hread : urkel_bits_read (b0 :: b1 :: rest) =
            (urkel_bits_init 0, false) := by
          simp only [urkel_bits_read, if_pos hb, bits_two_byte_size] at *
          rw [if_pos hsmall]
        constructor
        · rw [hread]
          constructor
          · intro _
            exact Or.inl (Or.inr (Or.inl ⟨b0, b1, rest, rfl, hb, hsmall⟩))
          · intro _
            rfl
        · rw [hread]
          intro _
          rfl
      · have hread : urkel_bits_read (b0 :: b1 :: rest) =
            urkel_bits_read_tail (bits_two_byte_size b0 b1) rest := by
          simp only [urkel_bits_read, if_pos hb, bits_two_byte_size] at *
          rw [if_neg hsmall]
        have htail := bits_read_tail_fail_iff (bits_two_byte_size b0 b1) rest
        constructor
        · rw [hread, htail.1]
          constructor
          · intro h
            rcases h with h | h
            · exact Or.inl (Or.inr (Or.inr (Or.inl
                ⟨bits_two_byte_size b0 b1, rest, hhdr, h⟩)))
            · exact Or.inl (Or.inr (Or.inr (Or.inr
                ⟨bits_two_byte_size b0 b1, rest, hhdr, h⟩)))
          · intro h
            rcases h with (h | ⟨c0, c1, rest2, heq, hc, hsz⟩ |
                ⟨sz, rest2, hhdr2, hgt⟩ | ⟨sz, rest2, hhdr2, hlt⟩) |
                ⟨c0, heq, _⟩
            · exact List.noConfusion h
            · obtain ⟨rfl, rfl, rfl⟩ : b0 = c0 ∧ b1 = c1 ∧ rest = rest2 := by
                simpa using heq
              exact absurd hsz hsmall
            · rw [hhdr] at hhdr2
              obtain ⟨h1, h2⟩ : sz = bits_two_byte_size b0 b1 ∧ rest2 = rest := by
                simpa using hhdr2.symm
              subst h1
              exact Or.inl hgt
            · rw [hhdr] at hhdr2
              obtain ⟨h1, h2⟩ : sz = bits_two_byte_size b0 b1 ∧ rest2 = rest := by
                simpa using hhdr2.symm
              subst h1
              subst h2
              exact Or.inr hlt
            · exact absurd heq (hne c0)
        · rw [hread]
          exact htail.2
    · have hhdr : bits_read_size_header (b0 :: b1 :: rest) =
          some (b0, b1 :: rest) := by
        simp only [bits_read_size_header, if_neg hb]
      have hread : urkel_bits_read (b0 :: b1 :: rest) =
          urkel_bits_read_tail b0 (b1 :: rest) := by
        simp only [urkel_bits_read, if_neg hb]
      have htail := bits_read_tail_fail_iff b0 (b1 :: rest)
      constructor
      · rw [hread, htail.1]
        constructor
        · intro h
          rcases h with h | h
          · exact Or.inl (Or.inr (Or.inr (Or.inl ⟨b0, b1 :: rest, hhdr, h⟩)))
          · exact Or.inl (Or.inr (Or.inr (Or.inr ⟨b0, b1 :: rest, hhdr, h⟩)))
        · intro h
          rcases h with (h | ⟨c0, c1, rest2, heq, hc, hsz⟩ |
              ⟨sz, rest2, hhdr2, hgt⟩ | ⟨sz, rest2, hhdr2, hlt⟩) | ⟨c0, heq, _⟩
          · exact List.noConfusion h
          · obtain ⟨rfl, rfl, rfl⟩ : b0 = c0 ∧ b1 = c1 ∧ rest = rest2 := by
              simpa using heq
            exact absurd hc hb
          · rw [hhdr] at hhdr2
            obtain ⟨h1, h2⟩ : sz = b0 ∧ rest2 = b1 :: rest := by
              simpa using hhdr2.symm
            subst h1
            exact Or.inl hgt
          · rw [hhdr] at hhdr2
            obtain ⟨h1, h2⟩ : sz = b0 ∧ rest2 = b1 :: rest := by
              simpa using hhdr2.symm
            subst h1
            subst h2
            exact Or.inr hlt
          · exact absurd heq (hne c0)
      · rw [hread]
        exact htail.2

/-! ## Error table (`src/src/common.c`) and `nurkel_create_error`
(`src/src/util.c`) -/

/-- The `urkel_errors` table of `src/src/common.c`: 14 entries, index 0
being `"URKEL_OK"`; errnos start with 1. -/
def urkel_errors : List String :=
  ["URKEL_OK",
   "URKEL_EHASHMISMATCH",
   "URKEL_ESAMEKEY",
   "URKEL_ESAMEPATH",
   "URKEL_ENEGDEPTH",
   "URKEL_EPATHMISMATCH",
   "URKEL_ETOODEEP",
   "URKEL_EINVAL",
   "URKEL_ENOTFOUND",
   "URKEL_ECORRUPTION",
   "URKEL_ENOUPDATE",
   "URKEL_EBADWRITE",
   "URKEL_EBADOPEN",
   "URKEL_EITEREND"]

/-- `urkel_errors_len` (`src/src/common.c`): the element count of the
table. -/
def urkel_errors_len : Nat := urkel_errors.length

/-- The guard of `nurkel_create_error` (`src/src/util.c:63`), under which
it reads `urkel_errors[err_res]`.  `err_res` is a C `int`; modelled on
`Int`. -/
def nurkel_create_error_guard (err_res : Int) : Bool :=
  err_res > 0 && err_res ≤ (urkel_errors_len : Int)

/-- The error-code string `nurkel_create_error` picks: the guarded table
read `urkel_errors[err_res]`, else `ERR_UNKNOWN`.  The table read is
modelled with `getD` whose default stands for whatever out-of-bounds
memory holds — the in-bounds claim is exactly that this default is never
consulted under the guard. -/
def nurkel_create_error_code (err_res : Int) : String :=
  if nurkel_create_error_guard err_res then
    urkel_errors.getD err_res.toNat "OUT_OF_BOUNDS"
  else
    "ERR_UNKNOWN"

/-- C10 fails on the code: `err_res = 14` passes the guard
(`0 < 14 ∧ 14 ≤ urkel_errors_len`) yet indexes past the 14-element table,
whose valid indices stop at 13 — `urkel_errors[14]` is an out-of-bounds
read. -/
theorem create_error_guard_out_of_bounds :
    nurkel_create_error_guard 14 = true ∧
      ¬ ((14 : Int).toNat < urkel_errors.length) := by
  constructor
  · decide
  · decide

/-- The in-bounds property the guard was meant to enforce holds exactly
for the strictly smaller codes `1..13`; 14 is the sole guarded escapee. -/
theorem create_error_guard_bounds_iff (err_res : Int) :
    (nurkel_create_error_guard err_res = true ∧
      err_res.toNat < urkel_errors.length) ↔
    (0 < err_res ∧ err_res < (urkel_errors_len : Int)) := by
  unfold nurkel_create_error_guard urkel_errors_len urkel_errors
  simp only [List.length_cons, List.length_nil, Bool.and_eq_true,
    decide_eq_true_eq]
  omega

/-- Witness for `create_error_guard_bounds_iff` at the largest real urkel
errno, `URKEL_EITEREND = 13`. -/
theorem create_error_guard_bounds_iff_witness :
    (nurkel_create_error_guard 13 = true ∧
      (13 : Int).toNat < urkel_errors.length) :=
  (create_error_guard_bounds_iff 13).mpr (by constructor <;> decide)

/-! ## Binding entry points (`src/src/tree.c`, `src/src/nurkel.c`)

The N-API plumbing is abstracted to the decisions the C code makes: a
call either throws a JS error (`threw`) or produces a value
(`returned`).  The underlying liburkel calls (`urkel_verify`,
`urkel_get`), whose sources are outside this snapshot, enter as an oracle
argument recording their result; an entry point consults the oracle
exactly where the C calls the library. -/

def JS_ERR_ARG : String := "Invalid argument."

/-- Outcome of a binding call: a thrown JS error or a returned value. -/
inductive JsOutcome (α : Type) where
  | threw (msg : String)
  | returned (v : α)
deriving DecidableEq, Repr

/-- Result of a call to liburkel's `urkel_verify` (the library source is
outside the snapshot): success with the existence flag and value, or
failure with `urkel_errno`. -/
inductive UrkelVerifyResult where
  | ok (found : Bool) (value : List Nat)
  | fail (errno : Int)
deriving DecidableEq, Repr

/-- `nurkel_verify_sync` (`src/src/tree.c:1120`): 32-byte root and key
checks, the buffer check `proof_len <= URKEL_PROOF_SIZE` (line 1145), and
the `[code, value]` result array built from `urkel_verify`'s outcome. -/
def nurkel_verify_sync_model (root key proof : List Nat)
    (uv : UrkelVerifyResult) : JsOutcome (Int × Option (List Nat)) :=
  if root.length ≠ URKEL_HASH_SIZE then .threw JS_ERR_ARG
  else if key.length ≠ URKEL_HASH_SIZE then .threw JS_ERR_ARG
  else if ¬ proof.length ≤ URKEL_PROOF_SIZE then .threw JS_ERR_ARG
  else
    match uv with
    | .fail e => .returned (e, none)
    | .ok found value =>
      .returned ((URKEL_OK : Nat), if found then some value else none)

/-- The asynchronous `nurkel_verify` (`src/src/tree.c:1240`) combined
with its completion callback (`src/src/tree.c:1197`, the
`status == napi_ok` case): the method validates root and key and copies
the proof buffer at whatever length it has — there is no
`URKEL_PROOF_SIZE` comparison on this path — and the completion resolves
the promise with the `[code, value]` array. -/
def nurkel_verify_model (root key proof : List Nat)
    (uv : UrkelVerifyResult) : JsOutcome (Int × Option (List Nat)) :=
  if root.length ≠ URKEL_HASH_SIZE then .threw JS_ERR_ARG
  else if key.length ≠ URKEL_HASH_SIZE then .threw JS_ERR_ARG
  else
    match uv with
    | .fail e => .returned (e, none)
    | .ok found value =>
      .returned ((URKEL_OK : Nat), if found then some value else none)

/-- Counterexample to C6 as stated: a 17958-byte proof exceeds
`URKEL_PROOF_SIZE`, yet the asynchronous `nurkel_verify` does not reject
it as an invalid argument — the oversized buffer reaches `urkel_verify`,
whose outcome (here `URKEL_EINVAL = 7`) is what the promise resolves
with. -/
theorem verify_async_accepts_oversized_proof :
    (List.replicate 17958 0).length > URKEL_PROOF_SIZE ∧
    nurkel_verify_model (List.replicate 32 0) (List.replicate 32 0)
        (List.replicate 17958 0) (.fail 7) = .returned (7, none) := by
  constructor
  · rw [List.length_replicate]
    norm_num [URKEL_PROOF_SIZE]
  · simp [nurkel_verify_model, URKEL_HASH_SIZE]

/-- C6 as amended: the synchronous entry point `nurkel_verify_sync`
rejects every proof buffer longer than `URKEL_PROOF_SIZE = 17957` as an
invalid argument, without consulting `urkel_verify` (the outcome is the
same for every oracle value). -/
theorem verify_sync_rejects_oversized_proof (root key proof : List Nat)
    (uv : UrkelVerifyResult) (h : proof.length > URKEL_PROOF_SIZE) :
    nurkel_verify_sync_model root key proof uv = .threw JS_ERR_ARG := by
  unfold nurkel_verify_sync_model
  by_cases hr : root.length ≠ URKEL_HASH_SIZE
  · rw [if_pos hr]
  · rw [if_neg hr]
    by_cases hk : key.length ≠ URKEL_HASH_SIZE
    · rw [if_pos hk]
    · rw [if_neg hk, if_pos (by omega)]

/-- Witness for `verify_sync_rejects_oversized_proof` at a concrete
oversized proof. -/
theorem verify_sync_rejects_oversized_proof_witness :
    (List.replicate 17958 0).length > URKEL_PROOF_SIZE ∧
    nurkel_verify_sync_model (List.replicate 32 0) (List.replicate 32 0)
        (List.replicate 17958 0) (.fail 7) = .threw JS_ERR_ARG :=
  ⟨by rw [List.length_replicate]; norm_num [URKEL_PROOF_SIZE],
   verify_sync_rejects_oversized_proof _ _ _ _
     (by rw [List.length_replicate]; norm_num [URKEL_PROOF_SIZE])⟩

/-- C7: with well-formed root and key and an accepted proof length, both
verification entry points always produce a `[code, value]` result — never
a thrown exception — and the result is `[URKEL_OK, value]` on proven
presence, `[URKEL_OK, null]` on proven absence, and `[errno, null]` when
`urkel_verify` fails. -/
theorem nurkel_verify_result_shape (root key proof : List Nat)
    (uv : UrkelVerifyResult) (hr : root.length = URKEL_HASH_SIZE)
    (hk : key.length = URKEL_HASH_SIZE)
    (hp : proof.length ≤ URKEL_PROOF_SIZE) :
    (∀ value, uv = .ok true value →
      nurkel_verify_sync_model root key proof uv =
          .returned ((URKEL_OK : Nat), some value) ∧
      nurkel_verify_model root key proof uv =
          .returned ((URKEL_OK : Nat), some value)) ∧
    (∀ value, uv = .ok false value →
      nurkel_verify_sync_model root key proof uv =
          .returned ((URKEL_OK : Nat), none) ∧
      nurkel_verify_model root key proof uv =
          .returned ((URKEL_OK : Nat), none)) ∧
    (∀ e, uv = .fail e →
      nurkel_verify_sync_model root key proof uv = .returned (e, none) ∧
      nurkel_verify_model root key proof uv = .returned (e, none)) ∧
    (∀ msg, nurkel_verify_sync_model root key proof uv ≠ .threw msg ∧
      nurkel_verify_model root key proof uv ≠ .threw msg) := by
  unfold nurkel_verify_sync_model nurkel_verify_model
  rw [if_neg (by omega), if_neg (by omega), if_neg (by omega),
    if_neg (by omega), if_neg (by omega)]
  refine ⟨?_, ?_, ?_, ?_⟩
  · intro value hv
    subst hv
    simp
  · intro value hv
    subst hv
    simp
  · intro e hv
    subst hv
    simp
  · intro msg
    match uv with
    | .ok found value => simp
    | .fail e => simp

/-- Witness for `nurkel_verify_result_shape` at concrete arguments. -/
theorem nurkel_verify_result_shape_witness :
    ((List.replicate 32 0).length = URKEL_HASH_SIZE ∧
      (List.replicate 32 (0 : Nat)).length = URKEL_HASH_SIZE ∧
      ([2, 3] : List Nat).length ≤ URKEL_PROOF_SIZE) ∧
    (∀ e, (UrkelVerifyResult.fail 1) = .fail e →
      nurkel_verify_sync_model (List.replicate 32 0) (List.replicate 32 0)
          [2, 3] (.fail 1) = .returned (e, none) ∧
      nurkel_verify_model (List.replicate 32 0) (List.replicate 32 0)
          [2, 3] (.fail 1) = .returned (e, none)) := by
  have h := nurkel_verify_result_shape (List.replicate 32 0)
    (List.replicate 32 0) [2, 3] (.fail 1)
    (by simp [URKEL_HASH_SIZE]) (by simp [URKEL_HASH_SIZE])
    (by simp [URKEL_PROOF_SIZE])
  exact ⟨⟨by simp [URKEL_HASH_SIZE], by simp [URKEL_HASH_SIZE],
    by simp [URKEL_PROOF_SIZE]⟩, h.2.2.1⟩

/-- Result of a call to liburkel's `urkel_get` (library source outside
the snapshot): the stored value, or failure with `urkel_errno`. -/
inductive UrkelGetResult where
  | ok (value : List Nat)
  | fail (errno : Nat)
deriving DecidableEq, Repr

/-- `nurkel_tree_get_sync` (`src/src/tree.c:675`): 32-byte key check,
then `urkel_get`; success returns the value buffer, failure returns
`null` when `urkel_errno == URKEL_ENOTFOUND` and otherwise throws
`JS_THROW_CODE(urkel_errno, "Failed to get.")`. -/
def nurkel_tree_get_sync_model (key : List Nat) (ug : UrkelGetResult) :
    JsOutcome (Option (List Nat)) :=
  if key.length ≠ URKEL_HASH_SIZE then .threw JS_ERR_ARG
  else
    match ug with
    | .ok value => .returned (some value)
    | .fail e =>
      if e = URKEL_ENOTFOUND then .returned none
      else .threw "Failed to get."

/-- The 13-entry error table private to `src/src/nurkel.c` (no
`"URKEL_OK"` entry; index `errno - 1` names errno). -/
def urkel_errors_nurkel_c : List String :=
  ["URKEL_EHASHMISMATCH",
   "URKEL_ESAMEKEY",
   "URKEL_ESAMEPATH",
   "URKEL_ENEGDEPTH",
   "URKEL_EPATHMISMATCH",
   "URKEL_ETOODEEP",
   "URKEL_EINVAL",
   "URKEL_ENOTFOUND",
   "URKEL_ECORRUPTION",
   "URKEL_ENOUPDATE",
   "URKEL_EBADWRITE",
   "URKEL_EBADOPEN",
   "URKEL_EITEREND"]

/-- `nurkel_get_sync` (`src/src/nurkel.c:1569`): 32-byte key check, then
`urkel_get`; success returns the value buffer, but every failure —
`URKEL_ENOTFOUND` included — throws
`JS_THROW_CODE(urkel_errors[urkel_errno - 1], "Failed to get.")`. -/
def nurkel_get_sync_model (key : List Nat) (ug : UrkelGetResult) :
    JsOutcome (Option (List Nat)) :=
  if key.length ≠ URKEL_HASH_SIZE then .threw JS_ERR_ARG
  else
    match ug with
    | .ok value => .returned (some value)
    | .fail e => .threw (urkel_errors_nurkel_c.getD (e - 1) "ERR_UNKNOWN")

/-- Counterexample to C8 as stated: the synchronous get entry point
`nurkel_get_sync` of `src/src/nurkel.c` does not return `null` on
`URKEL_ENOTFOUND` — it throws. -/
theorem get_sync_throws_on_notfound :
    nurkel_get_sync_model (List.replicate 32 0) (.fail URKEL_ENOTFOUND) =
      .threw "URKEL_ENOTFOUND" ∧
    nurkel_get_sync_model (List.replicate 32 0) (.fail URKEL_ENOTFOUND) ≠
      .returned none := by
  constructor
  · simp [nurkel_get_sync_model, URKEL_HASH_SIZE, URKEL_ENOTFOUND,
      urkel_errors_nurkel_c]
  · simp [nurkel_get_sync_model, URKEL_HASH_SIZE, URKEL_ENOTFOUND,
      urkel_errors_nurkel_c]

/-- C8 as amended, for `nurkel_tree_get_sync` of `src/src/tree.c`: with a
32-byte key, an absent key (`URKEL_ENOTFOUND`) yields `null`, a present
key yields its value, and an exception arises exactly for error codes
other than `URKEL_ENOTFOUND`. -/
theorem tree_get_sync_notfound_is_null (key : List Nat)
    (hk : key.length = URKEL_HASH_SIZE) :
    nurkel_tree_get_sync_model key (.fail URKEL_ENOTFOUND) =
      .returned none ∧
    (∀ value, nurkel_tree_get_sync_model key (.ok value) =
      .returned (some value)) ∧
    (∀ e, e ≠ URKEL_ENOTFOUND →
      nurkel_tree_get_sync_model key (.fail e) = .threw "Failed to get.") := by
  have hcond : ¬ key.length ≠ URKEL_HASH_SIZE := by omega
  unfold nurkel_tree_get_sync_model
  simp only [if_neg hcond]
  refine ⟨by simp, fun value => by simp, fun e he => ?_⟩
  simp [he]

/-- Witness for `tree_get_sync_notfound_is_null` with a concrete key. -/
theorem tree_get_sync_notfound_is_null_witness :
    (List.replicate 32 0).length = URKEL_HASH_SIZE ∧
    nurkel_tree_get_sync_model (List.replicate 32 0)
        (.fail URKEL_ENOTFOUND) = .returned none :=
  ⟨by simp [URKEL_HASH_SIZE],
   (tree_get_sync_notfound_is_null (List.replicate 32 0)
     (by simp [URKEL_HASH_SIZE])).1⟩

/-! ## Iterator serial-next discipline (`src/src/transaction.c`) -/

/-- `enum nurkel_state` (`src/src/common.h:35`).  `open` is a Lean
keyword, hence `opened`. -/
inductive NurkelState where
  | closed
  | opening
  | opened
  | closing
deriving DecidableEq, Repr

/-- The iterator fields that govern the serial-next discipline:
`niter->state`, `niter->nexting` (`src/src/common.h:162`), and a ghost
count of `iter_next` workers currently queued or executing (what the
comment on `nexting` calls "similar to workers, but it can only exist
once"). -/
structure IterState where
  state : NurkelState
  nexting : Bool
  inflight : Nat
deriving DecidableEq, Repr

/-- Modelled from the spec: the `NURKEL_READY` macro that generates
`nurkel_niter_ready` is not in the snapshot (only its uses at
`transaction.c:1817` and in `NURKEL_ITER_READY`); per the state enum and
the `inst_errors` table, an instance is ready exactly when it is open. -/
def nurkel_niter_ready (s : IterState) : Bool :=
  s.state = NurkelState.opened

/-- Events affecting the iterator's next machinery: a call to
`nurkel_iter_next_sync` (`transaction.c:2038`), a call to
`nurkel_iter_next` (`transaction.c:2181`, with the `napi_queue_async_work`
status as a parameter), and the completion callback
`nurkel_iter_next_complete` (`transaction.c:2126`). -/
inductive IterEvent where
  | nextSync
  | next (queueOk : Bool)
  | nextComplete
deriving DecidableEq, Repr

/-- `nurkel_iter_next_sync`: `NURKEL_ITER_READY()` throws unless the
iterator is ready; `JS_ASSERT(!niter->nexting, "Already nexting.")`
throws while a next is in flight; otherwise the whole iteration loop runs
synchronously, touching neither `nexting` nor the worker count.  The
`Bool` reports whether the iteration ran (`false` = the call threw). -/
def nurkel_iter_next_sync_step (s : IterState) : IterState × Bool :=
  if ¬ nurkel_niter_ready s then (s, false)
  else if s.nexting then (s, false)
  else (s, true)

/-- `nurkel_iter_next`: the same two guards; then the worker is created
and queued — only if queueing succeeds does the method set
`niter->nexting = true` (`transaction.c:2211`) with the worker now in
flight; a queue failure frees the worker and throws, leaving `nexting`
untouched.  The `Bool` reports whether a new iteration was queued. -/
def nurkel_iter_next_step (s : IterState) (queueOk : Bool) :
    IterState × Bool :=
  if ¬ nurkel_niter_ready s then (s, false)
  else if s.nexting then (s, false)
  else if queueOk then
    ({ s with nexting := true, inflight := s.inflight + 1 }, true)
  else (s, false)

/-- `nurkel_iter_next_complete`: runs once per queued worker (so only
when one is in flight) and clears `niter->nexting`
(`transaction.c:2132`). -/
def nurkel_iter_next_complete_step (s : IterState) : IterState × Bool :=
  if s.inflight = 0 then (s, false)
  else ({ s with nexting := false, inflight := s.inflight - 1 }, true)

/-- One step of the iterator's next machinery. -/
def nurkel_iter_step (s : IterState) : IterEvent → IterState × Bool
  | .nextSync => nurkel_iter_next_sync_step s
  | .next queueOk => nurkel_iter_next_step s queueOk
  | .nextComplete => nurkel_iter_next_complete_step s

/-- Iterator state after `nurkel_niter_init` (`transaction.c:1800`) and a
successful open: open, not nexting, no worker in flight. -/
def nurkel_iter_opened : IterState :=
  ⟨NurkelState.opened, false, 0⟩

/-- States the next machinery can reach from a freshly opened iterator. -/
inductive IterReachable : IterState → Prop where
  | base : IterReachable nurkel_iter_opened
  | step (s : IterState) (e : IterEvent) (h : IterReachable s) :
      IterReachable (nurkel_iter_step s e).1

/-- Invariant: the in-flight worker count never exceeds one, and
`nexting` is set exactly while a worker is in flight. -/
theorem iter_inflight_invariant (s : IterState) (h : IterReachable s) :
    s.inflight ≤ 1 ∧ (s.nexting = true ↔ s.inflight = 1) := by
  induction h with
  | base => simp [nurkel_iter_opened]
  | step s e hs ih =>
    match e with
    | .nextSync =>
      unfold nurkel_iter_step nurkel_iter_next_sync_step
      by_cases h1 : ¬ nurkel_niter_ready s
      · simpa [h1] using ih
      · by_cases h2 : s.nexting
        · simpa [h1, h2] using ih
        · simpa [h1, h2] using ih
    | .next queueOk =>
      unfold nurkel_iter_step nurkel_iter_next_step
      by_cases h1 : ¬ nurkel_niter_ready s
      · simpa [h1] using ih
      · by_cases h2 : s.nexting
        · simpa [h1, h2] using ih
        · have hz : s.inflight = 0 := by
            rcases ih with ⟨hle, hiff⟩
            rcases Nat.lt_or_ge s.inflight 1 with hlt | hge
            · omega
            · exact absurd (hiff.mpr (by omega)) (by simpa using h2)
          by_cases h3 : queueOk
          · simp [h1, h2, h3, hz]
          · simpa [h1, h2, h3] using ih
    | .nextComplete =>
      unfold nurkel_iter_step nurkel_iter_next_complete_step
      by_cases h1 : s.inflight = 0
      · simpa [h1] using ih
      · rcases ih with ⟨hle, hiff⟩
        simp only [h1, if_neg, if_false]
        constructor
        · simp
          omega
        · simp
          omega

/-- C9: from any reachable iterator state with a next in flight
(`nexting` set), a further `nurkel_iter_next` call — whatever its queueing
status — and a further `nurkel_iter_next_sync` call both fail without
starting an iteration or changing the state; and any step that clears the
flag is the completion of the in-flight next.  Together with
`iter_inflight_invariant` (at most one worker ever in flight), this is the
serial-next discipline. -/
theorem iter_next_serial_discipline (s : IterState) (h : IterReachable s)
    (hn : s.nexting = true) :
    (∀ queueOk, nurkel_iter_step s (.next queueOk) = (s, false)) ∧
    nurkel_iter_step s .nextSync = (s, false) ∧
    (∀ e, ((nurkel_iter_step s e).1.nexting = false → e = .nextComplete)) ∧
    s.inflight = 1 := by
  have hinv := iter_inflight_invariant s h
  have hone : s.inflight = 1 := hinv.2.mp hn
  refine ⟨?_, ?_, ?_, hone⟩
  · intro queueOk
    unfold nurkel_iter_step nurkel_iter_next_step
    by_cases h1 : ¬ nurkel_niter_ready s
    · simp [h1]
    · simp [h1, hn]
  · unfold nurkel_iter_step nurkel_iter_next_sync_step
    by_cases h1 : ¬ nurkel_niter_ready s
    · simp [h1]
    · simp [h1, hn]
  · intro e
    match e with
    | .nextSync =>
      unfold nurkel_iter_step nurkel_iter_next_sync_step
      by_cases h1 : ¬ nurkel_niter_ready s
      · simp [h1, hn]
      · simp [h1, hn]
    | .next queueOk =>
      unfold nurkel_iter_step nurkel_iter_next_step
      by_cases h1 : ¬ nurkel_niter_ready s
      · simp [h1, hn]
      · simp [h1, hn]
    | .nextComplete =>
      intro _
      rfl

/-- Witness for `iter_next_serial_discipline` at the state reached by one
successfully queued `nurkel_iter_next`. -/
theorem iter_next_serial_discipline_witness :
    (IterReachable ⟨NurkelState.opened, true, 1⟩ ∧
      (⟨NurkelState.opened, true, 1⟩ : IterState).nexting = true) ∧
    ((∀ queueOk, nurkel_iter_step ⟨NurkelState.opened, true, 1⟩
        (.next queueOk) = (⟨NurkelState.opened, true, 1⟩, false)) ∧
      nurkel_iter_step ⟨NurkelState.opened, true, 1⟩ .nextSync =
        (⟨NurkelState.opened, true, 1⟩, false) ∧
      (∀ e, ((nurkel_iter_step ⟨NurkelState.opened, true, 1⟩ e).1.nexting =
          false → e = .nextComplete)) ∧
      (⟨NurkelState.opened, true, 1⟩ : IterState).inflight = 1) := by
  have hreach : IterReachable ⟨NurkelState.opened, true, 1⟩ := by
    have h := IterReachable.step nurkel_iter_opened (.next true)
      IterReachable.base
    simpa [nurkel_iter_step, nurkel_iter_next_step, nurkel_niter_ready,
      nurkel_iter_opened] using h
  exact ⟨⟨hreach, rfl⟩,
    iter_next_serial_discipline ⟨NurkelState.opened, true, 1⟩ hreach rfl⟩

/-! ## C4: `urkel_bits_count` / `urkel_bits_has` -/

/-- Behaviour of the counting loop: its result is at most the iteration
bound, every counted position agrees, and a result short of the bound
stops at a disagreeing position. -/
theorem urkel_bits_count_loop_spec (bits : UrkelBits) (key : List Nat) :
    ∀ len index depth,
      urkel_bits_count_loop bits key index depth len ≤ len ∧
      (∀ i < urkel_bits_count_loop bits key index depth len,
        urkel_bits_get bits (index + i) = urkel_get_bit key (depth + i)) ∧
      (urkel_bits_count_loop bits key index depth len < len →
        urkel_bits_get bits
            (index + urkel_bits_count_loop bits key index depth len) ≠
          urkel_get_bit key
            (depth + urkel_bits_count_loop bits key index depth len)) := by
  intro len
  induction len with
  | zero =>
    intro index depth
    refine ⟨Nat.le_refl 0, ?_, ?_⟩
    · intro i hi
      exact absurd hi (Nat.not_lt_zero i)
    · intro hlt
      exact absurd hlt (Nat.lt_irrefl 0)
  | succ n ih =>
    intro index depth
    unfold urkel_bits_count_loop
    by_cases hb : urkel_bits_get bits index = urkel_get_bit key depth
    · rw [if_pos hb]
      obtain ⟨h1, h2, h3⟩ := ih (index + 1) (depth + 1)
      refine ⟨by omega, ?_, ?_⟩
      · intro i hi
        cases i with
        | zero => simpa using hb
        | succ j =>
          have hj := h2 j (by omega)
          have e1 : index + (j + 1) = index + 1 + j := by omega
          have e2 : depth + (j + 1) = depth + 1 + j := by omega
          rw [e1, e2]
          exact hj
      · intro hlt
        have hm := h3 (by omega)
        have e1 : index + (urkel_bits_count_loop bits key (index + 1)
            (depth + 1) n + 1) =
            index + 1 + urkel_bits_count_loop bits key (index + 1)
              (depth + 1) n := by omega
        have e2 : depth + (urkel_bits_count_loop bits key (index + 1)
            (depth + 1) n + 1) =
            depth + 1 + urkel_bits_count_loop bits key (index + 1)
              (depth + 1) n := by omega
        rw [e1, e2]
        exact hm
    · rw [if_neg hb]
      refine ⟨Nat.zero_le _, ?_, ?_⟩
      · intro i hi
        exact absurd hi (Nat.not_lt_zero i)
      · intro _
        simpa using hb

/-- C4: with `p.size ≤ 256`, a 32-byte key and `depth ≤ 256`,
`urkel_bits_count p key depth` is the number of leading bits of `p`
agreeing with the key's bits from `depth` on, capped at
`min(p.size, 256 - depth)` — it never exceeds the cap, all counted
positions agree, and a count below the cap stops at a mismatch — and
`urkel_bits_has` is true exactly when the count is all of `p.size`. -/
theorem bits_count_has_spec (p : UrkelBits) (key : List Nat) (depth : Nat)
    (hsz : p.size ≤ 256) (hk : key.length = 32) (hd : depth ≤ 256) :
    urkel_bits_count p key depth ≤ min p.size (256 - depth) ∧
    (∀ i < urkel_bits_count p key depth,
      urkel_bits_get p i = urkel_get_bit key (depth + i)) ∧
    (urkel_bits_count p key depth < min p.size (256 - depth) →
      urkel_bits_get p (urkel_bits_count p key depth) ≠
        urkel_get_bit key (depth + urkel_bits_count p key depth)) ∧
    (urkel_bits_has p key depth = true ↔
      urkel_bits_count p key depth = p.size) := by
  have hlen : min (p.size - 0) (URKEL_KEY_BITS - depth) =
      min p.size (256 - depth) := by
    unfold URKEL_KEY_BITS
    omega
  obtain ⟨h1, h2, h3⟩ := urkel_bits_count_loop_spec p key
    (min p.size (256 - depth)) 0 depth
  have hcount : urkel_bits_count p key depth =
      urkel_bits_count_loop p key 0 depth (min p.size (256 - depth)) := by
    unfold urkel_bits_count urkel_bits__count
    rw [hlen]
  refine ⟨?_, ?_, ?_, ?_⟩
  · rw [hcount]
    exact h1
  · intro i hi
    rw [hcount] at hi
    have := h2 i hi
    simpa using this
  · intro hlt
    rw [hcount] at hlt ⊢
    have := h3 hlt
    simpa using this
  · unfold urkel_bits_has
    exact beq_iff_eq

/-- Witness for `bits_count_has_spec` at a concrete path, key and
depth. -/
theorem bits_count_has_spec_witness :
    ((⟨5, 0xA8 :: List.replicate 31 0⟩ : UrkelBits).size ≤ 256 ∧
      (0x2A :: List.replicate 31 (0 : Nat)).length = 32 ∧ 2 ≤ 256) ∧
    (urkel_bits_count ⟨5, 0xA8 :: List.replicate 31 0⟩
        (0x2A :: List.replicate 31 0) 2 ≤
      min (⟨5, 0xA8 :: List.replicate 31 0⟩ : UrkelBits).size (256 - 2) ∧
    (∀ i < urkel_bits_count ⟨5, 0xA8 :: List.replicate 31 0⟩
        (0x2A :: List.replicate 31 0) 2,
      urkel_bits_get ⟨5, 0xA8 :: List.replicate 31 0⟩ i =
        urkel_get_bit (0x2A :: List.replicate 31 0) (2 + i)) ∧
    (urkel_bits_count ⟨5, 0xA8 :: List.replicate 31 0⟩
        (0x2A :: List.replicate 31 0) 2 <
        min (⟨5, 0xA8 :: List.replicate 31 0⟩ : UrkelBits).size (256 - 2) →
      urkel_bits_get ⟨5, 0xA8 :: List.replicate 31 0⟩
          (urkel_bits_count ⟨5, 0xA8 :: List.replicate 31 0⟩
            (0x2A :: List.replicate 31 0) 2) ≠
        urkel_get_bit (0x2A :: List.replicate 31 0)
          (2 + urkel_bits_count ⟨5, 0xA8 :: List.replicate 31 0⟩
            (0x2A :: List.replicate 31 0) 2)) ∧
    (urkel_bits_has ⟨5, 0xA8 :: List.replicate 31 0⟩
        (0x2A :: List.replicate 31 0) 2 = true ↔
      urkel_bits_count ⟨5, 0xA8 :: List.replicate 31 0⟩
          (0x2A :: List.replicate 31 0) 2 =
        (⟨5, 0xA8 :: List.replicate 31 0⟩ : UrkelBits).size)) :=
  ⟨⟨by norm_num, by simp, by norm_num⟩,
   bits_count_has_spec ⟨5, 0xA8 :: List.replicate 31 0⟩
     (0x2A :: List.replicate 31 0) 2 (by norm_num) (by simp) (by norm_num)⟩

/-! ## C5: `urkel_bits_split` / `urkel_bits_join` -/

/-- Reading one bit by shift-and-mask is `Nat.testBit`. -/
theorem shiftRight_and_one_eq_testBit (x m : Nat) :
    (x >>> m) &&& 1 = (x.testBit m).toNat := by
  rw [Nat.and_one_is_mod, Nat.shiftRight_eq_div_pow, Nat.testBit_to_div_mod]
  rcases Nat.mod_two_eq_zero_or_one (x / 2 ^ m) with h | h <;> simp [h]

/-- `urkel_bits_get` as a `testBit` of the addressed byte. -/
theorem bits_get_eq_testBit (bits : UrkelBits) (i : Nat) :
    urkel_bits_get bits i =
      ((bits.data.getD (i / 8) 0).testBit (7 - i % 8)).toNat := by
  unfold urkel_bits_get
  exact shiftRight_and_one_eq_testBit _ _

/-- A bit value is a fixed point of masking with 1. -/
theorem bits_get_and_one (bits : UrkelBits) (i : Nat) :
    urkel_bits_get bits i &&& 1 = urkel_bits_get bits i := by
  unfold urkel_bits_get
  rw [Nat.and_assoc]
  norm_num

/-- Two bytes agreeing at each of their eight bit positions are equal. -/
theorem byte_ext {a b : Nat} (ha : a < 256) (hb : b < 256)
    (h : ∀ m, m < 8 → (a >>> m) &&& 1 = (b >>> m) &&& 1) : a = b := by
  apply Nat.eq_of_testBit_eq
  intro k
  rcases Nat.lt_or_ge k 8 with hk | hk
  · have := h k hk
    rw [shiftRight_and_one_eq_testBit, shiftRight_and_one_eq_testBit] at this
    cases h1 : a.testBit k <;> cases h2 : b.testBit k <;>
      simp [h1, h2] at this ⊢
  · have h1 : a.testBit k = false :=
      Nat.testBit_lt_two_pow (lt_of_lt_of_le ha (by
        calc (256 : Nat) = 2 ^ 8 := by norm_num
        _ ≤ 2 ^ k := Nat.pow_le_pow_right (by norm_num) hk))
    have h2 : b.testBit k = false :=
      Nat.testBit_lt_two_pow (lt_of_lt_of_le hb (by
        calc (256 : Nat) = 2 ^ 8 := by norm_num
        _ ≤ 2 ^ k := Nat.pow_le_pow_right (by norm_num) hk))
    rw [h1, h2]

/-- Every `getD` read of the zeroed array is zero. -/
theorem getD_replicate_zero (n k : Nat) :
    (List.replicate n (0 : Nat)).getD k 0 = 0 := by
  rw [List.getD_eq_getElem?_getD, List.getElem?_replicate]
  by_cases h : k < n <;> simp [h]

/-- Every bit of a freshly initialised path reads zero. -/
theorem bits_init_get (n j : Nat) :
    urkel_bits_get (urkel_bits_init n) j = 0 := by
  unfold urkel_bits_get urkel_bits_init
  rw [getD_replicate_zero]
  simp

/-- `urkel_bits_set` preserves the stored size. -/
theorem bits_set_size (bits : UrkelBits) (i b : Nat) :
    (urkel_bits_set bits i b).size = bits.size := rfl

/-- `urkel_bits_set` preserves the array length. -/
theorem bits_set_length (bits : UrkelBits) (i b : Nat) :
    (urkel_bits_set bits i b).data.length = bits.data.length :=
  List.length_set _ _ _

/-- `urkel_bits_set` keeps every byte below 256. -/
theorem bits_set_bytes_lt (bits : UrkelBits) (i b : Nat)
    (h : ∀ x ∈ bits.data, x < 256) :
    ∀ x ∈ (urkel_bits_set bits i b).data, x < 256 := by
  intro x hx
  rcases List.mem_or_eq_of_mem_set hx with hmem | heq
  · exact h x hmem
  · subst heq
    have hold : bits.data.getD (i / 8) 0 < 256 := by
      rw [List.getD_eq_getElem?_getD]
      rcases h8 : bits.data[i / 8]? with _ | v
      · simp
      · have hv := h v (List.getElem?_mem h8)
        simpa using hv
    have hsh : (b &&& 1) <<< (7 - i % 8) < 256 := by
      have hb1 : b &&& 1 ≤ 1 := Nat.and_le_right
      calc (b &&& 1) <<< (7 - i % 8) = (b &&& 1) * 2 ^ (7 - i % 8) := by
            rw [Nat.shiftLeft_eq]
        _ ≤ 1 * 2 ^ (7 - i % 8) := by
            exact Nat.mul_le_mul_right _ hb1
        _ = 2 ^ (7 - i % 8) := by ring
        _ ≤ 2 ^ 7 := Nat.pow_le_pow_right (by norm_num) (by omega)
        _ < 256 := by norm_num
    calc bits.data.getD (i / 8) 0 ||| (b &&& 1) <<< (7 - i % 8) < 2 ^ 8 :=
          Nat.or_lt_two_pow (by simpa using hold) (by simpa using hsh)
      _ = 256 := by norm_num

/-- Reading after `urkel_bits_set`: position `i` now also carries
`b & 1`; every other position is untouched. -/
theorem bits_get_set (bits : UrkelBits) (hlen : bits.data.length = 32)
    (i j b : Nat) (hi : i < 256) (hj : j < 256) :
    urkel_bits_get (urkel_bits_set bits i b) j =
      if j = i then urkel_bits_get bits i ||| (b &&& 1)
      else urkel_bits_get bits j := by
  unfold urkel_bits_set urkel_bits_get
  simp only
  by_cases hbyte : j / 8 = i / 8
  · have hidx : i / 8 < bits.data.length := by
      rw [hlen]
      omega
    have hset : (bits.data.set (i / 8)
        (bits.data.getD (i / 8) 0 ||| (b &&& 1) <<< (7 - i % 8))).getD
          (j / 8) 0 =
        bits.data.getD (i / 8) 0 ||| (b &&& 1) <<< (7 - i % 8) := by
      rw [hbyte, List.getD_eq_getElem?_getD, List.getElem?_set_self hidx]
      rfl
    rw [hset]
    by_cases heq : j = i
    · subst heq
      rw [if_pos rfl]
      rw [shiftRight_and_one_eq_testBit, shiftRight_and_one_eq_testBit,
        Nat.testBit_or, Nat.testBit_shiftLeft]
      have hd : decide (7 - j % 8 ≥ 7 - j % 8) = true := by simp
      rw [hd, Nat.sub_self]
      have hb0 : (b &&& 1).testBit 0 = b.testBit 0 := by
        rw [Nat.testBit_and]
        simp
      have hb1 : b &&& 1 = (b.testBit 0).toNat := by
        have := shiftRight_and_one_eq_testBit b 0
        rwa [Nat.shiftRight_zero] at this
      rw [Bool.true_and, hb0, hb1]
      cases h1 : (bits.data.getD (j / 8) 0).testBit (7 - j % 8) <;>
        cases h2 : b.testBit 0 <;> simp
    · rw [if_neg heq]
      have hne : 7 - j % 8 ≠ 7 - i % 8 := by omega
      rw [shiftRight_and_one_eq_testBit, shiftRight_and_one_eq_testBit,
        Nat.testBit_or, Nat.testBit_shiftLeft, hbyte]
      have hfalse : (decide (7 - j % 8 ≥ 7 - i % 8) &&
          (b &&& 1).testBit (7 - j % 8 - (7 - i % 8))) = false := by
        by_cases hge : 7 - j % 8 ≥ 7 - i % 8
        · have hpos : 1 ≤ 7 - j % 8 - (7 - i % 8) := by omega
          have hlt2 : b &&& 1 < 2 ^ (7 - j % 8 - (7 - i % 8)) := by
            have hb1 : b &&& 1 ≤ 1 := Nat.and_le_right
            have : (2 : Nat) ≤ 2 ^ (7 - j % 8 - (7 - i % 8)) := by
              calc (2 : Nat) = 2 ^ 1 := by norm_num
              _ ≤ 2 ^ (7 - j % 8 - (7 - i % 8)) :=
                Nat.pow_le_pow_right (by norm_num) hpos
            omega
          rw [Nat.testBit_lt_two_pow hlt2]
          simp
        · simp [hge]
      rw [hfalse, Bool.or_false]
  · have hset : (bits.data.set (i / 8)
        (bits.data.getD (i / 8) 0 ||| (b &&& 1) <<< (7 - i % 8))).getD
          (j / 8) 0 = bits.data.getD (j / 8) 0 := by
      rw [List.getD_eq_getElem?_getD,
        List.getElem?_set_ne (fun h => hbyte (h.symm)),
        List.getD_eq_getElem?_getD]
    rw [hset, if_neg (fun h => hbyte (by rw [h]))]

/-- The set-folding loops preserve the stored size. -/
theorem bits_foldl_set_size (v : Nat → Nat) (off : Nat) :
    ∀ n (base : UrkelBits),
      ((List.range n).foldl
        (fun out k => urkel_bits_set out (off + k) (v k)) base).size =
      base.size := by
  intro n
  induction n with
  | zero =>
    intro base
    rfl
  | succ m ih =>
    intro base
    rw [List.range_succ, List.foldl_append]
    simp only [List.foldl_cons, List.foldl_nil]
    rw [bits_set_size, ih base]

/-- The set-folding loops preserve the array length. -/
theorem bits_foldl_set_length (v : Nat → Nat) (off : Nat) :
    ∀ n (base : UrkelBits),
      ((List.range n).foldl
        (fun out k => urkel_bits_set out (off + k) (v k)) base).data.length =
      base.data.length := by
  intro n
  induction n with
  | zero =>
    intro base
    rfl
  | succ m ih =>
    intro base
    rw [List.range_succ, List.foldl_append]
    simp only [List.foldl_cons, List.foldl_nil]
    rw [bits_set_length, ih base]

/-- The set-folding loops keep every byte below 256. -/
theorem bits_foldl_set_bytes_lt (v : Nat → Nat) (off : Nat) :
    ∀ n (base : UrkelBits), (∀ x ∈ base.data, x < 256) →
      ∀ x ∈ ((List.range n).foldl
        (fun out k => urkel_bits_set out (off + k) (v k)) base).data,
        x < 256 := by
  intro n
  induction n with
  | zero =>
    intro base hb
    exact hb
  | succ m ih =>
    intro base hb
    rw [List.range_succ, List.foldl_append]
    simp only [List.foldl_cons, List.foldl_nil]
    exact bits_set_bytes_lt _ _ _ (ih base hb)

/-- Reading after a run of sets at consecutive positions `off..off+n`:
positions inside the run carry their deposited bit or-ed over the base,
positions outside read the base. -/
theorem bits_foldl_set_get (v : Nat → Nat) (off : Nat) :
    ∀ n (base : UrkelBits) (j : Nat), base.data.length = 32 →
      off + n ≤ 256 → j < 256 →
      urkel_bits_get ((List.range n).foldl
          (fun out k => urkel_bits_set out (off + k) (v k)) base) j =
        if off ≤ j ∧ j < off + n then
          urkel_bits_get base j ||| (v (j - off) &&& 1)
        else urkel_bits_get base j := by
  intro n
  induction n with
  | zero =>
    intro base j hlen hoff hj
    rw [if_neg (by omega)]
    rfl
  | succ m ih =>
    intro base j hlen hoff hj
    rw [List.range_succ, List.foldl_append]
    simp only [List.foldl_cons, List.foldl_nil]
    have hflen : ((List.range m).foldl
        (fun out k => urkel_bits_set out (off + k) (v k)) base).data.length =
        32 := by
      rw [bits_foldl_set_length, hlen]
    rw [bits_get_set _ hflen (off + m) j (v m) (by omega) hj]
    by_cases heq : j = off + m
    · subst heq
      rw [if_pos rfl, ih base (off + m) hlen (by omega) hj,
        if_neg (by omega), if_pos (by omega)]
      have : off + m - off = m := by omega
      rw [this]
    · rw [if_neg heq, ih base j hlen (by omega) hj]
      by_cases hc : off ≤ j ∧ j < off + m
      · rw [if_pos hc, if_pos (by omega)]
      · rw [if_neg hc, if_neg (by omega)]

/-- Bridge between `urkel_bits_slice`'s loop and the generic set-folding
shape with offset 0. -/
theorem bits_slice_eq_foldl (bits : UrkelBits) (start e : Nat) :
    urkel_bits_slice bits start e =
      (List.range (e - start)).foldl
        (fun out k => urkel_bits_set out (0 + k)
          (urkel_bits_get bits (start + k)))
        (urkel_bits_init (e - start)) := by
  unfold urkel_bits_slice
  congr 1
  funext out k
  rw [Nat.zero_add]

/-- A slice's stored size is the requested width. -/
theorem bits_slice_size (bits : UrkelBits) (start e : Nat) :
    (urkel_bits_slice bits start e).size = e - start := by
  rw [bits_slice_eq_foldl, bits_foldl_set_size]
  rfl

/-- A slice's array keeps the fixed 32-byte length. -/
theorem bits_slice_length (bits : UrkelBits) (start e : Nat) :
    (urkel_bits_slice bits start e).data.length = 32 := by
  rw [bits_slice_eq_foldl, bits_foldl_set_length]
  simp [urkel_bits_init]

/-- A slice's bytes stay below 256. -/
theorem bits_slice_bytes_lt (bits : UrkelBits) (start e : Nat) :
    ∀ x ∈ (urkel_bits_slice bits start e).data, x < 256 := by
  rw [bits_slice_eq_foldl]
  apply bits_foldl_set_bytes_lt
  intro x hx
  unfold urkel_bits_init at hx
  rw [List.eq_of_mem_replicate hx]
  norm_num

/-- Reading a slice: position `j` holds the source's bit `start + j`
inside the width, and zero outside it. -/
theorem bits_slice_get (bits : UrkelBits) (start e j : Nat)
    (he : e - start ≤ 256) (hj : j < 256) :
    urkel_bits_get (urkel_bits_slice bits start e) j =
      if j < e - start then urkel_bits_get bits (start + j) else 0 := by
  rw [bits_slice_eq_foldl,
    bits_foldl_set_get _ 0 (e - start) (urkel_bits_init (e - start)) j
      (by simp [urkel_bits_init]) (by omega) hj]
  by_cases hc : j < e - start
  · rw [if_pos ⟨Nat.zero_le j, by omega⟩, if_pos hc, bits_init_get,
      Nat.zero_or, Nat.sub_zero, bits_get_and_one]
  · rw [if_neg (by omega), if_neg hc, bits_init_get]

/-- Reading a byte of the `memcpy`ed-then-zero-padded array of
`urkel_bits_join`. -/
theorem getD_take_append_replicate (l : List Nat) (hlen : l.length = 32)
    (n : Nat) (hn : n ≤ 32) (k : Nat) :
    (l.take n ++ List.replicate (32 - n) 0).getD k 0 =
      if k < n then l.getD k 0 else 0 := by
  rw [List.getD_eq_getElem?_getD, List.getElem?_append]
  have htl : (l.take n).length = n := by
    rw [List.length_take]
    omega
  rw [htl]
  by_cases hk : k < n
  · rw [if_pos hk, if_pos hk, List.getElem?_take, if_pos hk,
      List.getD_eq_getElem?_getD]
  · rw [if_neg hk, if_neg hk, List.getElem?_replicate]
    by_cases hk2 : k - n < 32 - n <;> simp [hk2]

/-- C5: `urkel_bits_split` yields the two slices around the dropped bit
`i`, and `urkel_bits_join` of those halves with bit `i` of the original
path reproduces the path exactly, for every well-formed trailing-zero
path and index `i < p.size`. -/
theorem bits_split_join_inverse (p : UrkelBits) (i : Nat) (hwf : p.wf)
    (htz : ∀ j, j < 256 → p.size ≤ j → urkel_bits_get p j = 0)
    (hi : i < p.size) :
    urkel_bits_split p i =
      (urkel_bits_slice p 0 i, urkel_bits_slice p (i + 1) p.size) ∧
    urkel_bits_join (urkel_bits_split p i).1 (urkel_bits_split p i).2
        (urkel_bits_get p i) = p := by
  obtain ⟨hpsz, hplen, hpbyte⟩ := hwf
  unfold URKEL_KEY_BITS at hpsz
  refine ⟨rfl, ?_⟩
  show urkel_bits_join (urkel_bits_slice p 0 i)
      (urkel_bits_slice p (i + 1) p.size) (urkel_bits_get p i) = p
  set L := urkel_bits_slice p 0 i with hLdef
  set R := urkel_bits_slice p (i + 1) p.size with hRdef
  set b := urkel_bits_get p i with hbdef
  have hLsize : L.size = i := by
    rw [hLdef, bits_slice_size, Nat.sub_zero]
  have hRsize : R.size = p.size - (i + 1) := by
    rw [hRdef, bits_slice_size]
  have hLlen : L.data.length = 32 := bits_slice_length p 0 i
  have hLbytes : ∀ x ∈ L.data, x < 256 := bits_slice_bytes_lt p 0 i
  have hbytes32 : (L.size + 7) / 8 ≤ 32 := by
    rw [hLsize]
    omega
  set out0 : UrkelBits :=
    ⟨L.size + R.size + 1,
     L.data.take ((L.size + 7) / 8) ++
       List.replicate (32 - (L.size + 7) / 8) 0⟩ with hout0def
  set out1 := urkel_bits_set out0 L.size b with hout1def
  have hJ : urkel_bits_join L R b =
      (List.range R.size).foldl
        (fun out k => urkel_bits_set out (L.size + 1 + k)
          (urkel_bits_get R k)) out1 := rfl
  have hout0len : out0.data.length = 32 := by
    rw [hout0def]
    simp only [List.length_append, List.length_take, List.length_replicate,
      hLlen]
    omega
  have hout0bytes : ∀ x ∈ out0.data, x < 256 := by
    rw [hout0def]
    intro x hx
    simp only [List.mem_append] at hx
    rcases hx with hx | hx
    · exact hLbytes x (List.mem_of_mem_take hx)
    · rw [List.eq_of_mem_replicate hx]
      norm_num
  have hget0 : ∀ j, j < 256 → urkel_bits_get out0 j =
      if j < i then urkel_bits_get p j else 0 := by
    intro j hj
    have hread : out0.data.getD (j / 8) 0 =
        if j / 8 < (L.size + 7) / 8 then L.data.getD (j / 8) 0 else 0 := by
      rw [hout0def]
      exact getD_take_append_replicate L.data hLlen _ hbytes32 (j / 8)
    show (out0.data.getD (j / 8) 0 >>> (7 - j % 8)) &&& 1 = _
    rw [hread]
    by_cases hcase : j / 8 < (L.size + 7) / 8
    · rw [if_pos hcase]
      have hgL : (L.data.getD (j / 8) 0 >>> (7 - j % 8)) &&& 1 =
          urkel_bits_get L j := rfl
      rw [hgL, hLdef, bits_slice_get p 0 i j (by omega) hj, Nat.sub_zero]
      by_cases hji : j < i
      · rw [if_pos hji, if_pos hji, Nat.zero_add]
      · rw [if_neg hji, if_neg hji]
    · rw [if_neg hcase]
      have hji : ¬ j < i := by
        rw [hLsize] at hcase
        omega
      rw [if_neg hji]
      simp
  have hget1 : ∀ j, j < 256 → urkel_bits_get out1 j =
      if j ≤ i then urkel_bits_get p j else 0 := by
    intro j hj
    rw [hout1def, bits_get_set out0 hout0len L.size j b
      (by omega) hj, hLsize]
    by_cases heq : j = i
    · subst heq
      rw [if_pos rfl, if_pos (Nat.le_refl j), hget0 j hj,
        if_neg (Nat.lt_irrefl j), Nat.zero_or, hbdef, bits_get_and_one]
    · rw [if_neg heq, hget0 j hj]
      by_cases hlt : j < i
      · rw [if_pos hlt, if_pos (by omega)]
      · rw [if_neg hlt, if_neg (by omega)]
  have hgetJ : ∀ j, j < 256 →
      urkel_bits_get (urkel_bits_join L R b) j = urkel_bits_get p j := by
    intro j hj
    have hout1len : out1.data.length = 32 := by
      rw [hout1def, bits_set_length, hout0len]
    rw [hJ, bits_foldl_set_get (urkel_bits_get R) (L.size + 1) R.size out1 j
      hout1len (by rw [hLsize, hRsize]; omega) hj, hLsize]
    by_cases hrange : i + 1 ≤ j ∧ j < i + 1 + R.size
    · rw [if_pos hrange, hget1 j hj, if_neg (by omega), Nat.zero_or,
        hRdef, bits_slice_get p (i + 1) p.size (j - (i + 1)) (by omega)
          (by omega)]
      rw [hRsize] at hrange
      rw [if_pos (by omega)]
      have harith : i + 1 + (j - (i + 1)) = j := by omega
      rw [harith, bits_get_and_one]
    · rw [if_neg hrange, hget1 j hj]
      by_cases hle : j ≤ i
      · rw [if_pos hle]
      · rw [if_neg hle]
        have hbig : p.size ≤ j := by
          rw [hRsize] at hrange
          omega
        rw [htz j hj hbig]
  have hJlen : (urkel_bits_join L R b).data.length = 32 := by
    rw [hJ, bits_foldl_set_length, hout1def, bits_set_length, hout0len]
  have hJbytes : ∀ x ∈ (urkel_bits_join L R b).data, x < 256 := by
    rw [hJ]
    apply bits_foldl_set_bytes_lt
    rw [hout1def]
    exact bits_set_bytes_lt out0 L.size b hout0bytes
  have hJsize : (urkel_bits_join L R b).size = p.size := by
    rw [hJ, bits_foldl_set_size, hout1def, bits_set_size, hout0def]
    show L.size + R.size + 1 = p.size
    rw [hLsize, hRsize]
    omega
  have hdata : (urkel_bits_join L R b).data = p.data := by
    apply List.ext_getElem (by rw [hJlen, hplen])
    intro t h1 h2
    have ht32 : t < 32 := by
      rw [hJlen] at h1
      exact h1
    apply byte_ext
    · exact hJbytes _ (List.getElem_mem h1)
    · exact hpbyte _ (List.getElem_mem h2)
    intro m hm
    have hj256 : 8 * t + (7 - m) < 256 := by omega
    have hbits := hgetJ (8 * t + (7 - m)) hj256
    unfold urkel_bits_get at hbits
    have hdiv : (8 * t + (7 - m)) / 8 = t := by omega
    have hmod : 7 - (8 * t + (7 - m)) % 8 = m := by omega
    rw [hdiv, hmod, List.getD_eq_getElem _ _ h1, List.getD_eq_getElem _ _ h2]
      at hbits
    exact hbits
  calc urkel_bits_join L R b
      = ⟨(urkel_bits_join L R b).size, (urkel_bits_join L R b).data⟩ := rfl
    _ = ⟨p.size, p.data⟩ := by rw [hJsize, hdata]
    _ = p := rfl

set_option maxRecDepth 10000 in
/-- Witness for `bits_split_join_inverse` at a concrete 17-bit path and
index 9. -/
theorem bits_split_join_inverse_witness :
    ((⟨17, 0xDE :: 0xAD :: 0x80 :: List.replicate 29 0⟩ : UrkelBits).wf ∧
      (∀ j, j < 256 →
        (⟨17, 0xDE :: 0xAD :: 0x80 :: List.replicate 29 0⟩ :
          UrkelBits).size ≤ j →
        urkel_bits_get ⟨17, 0xDE :: 0xAD :: 0x80 :: List.replicate 29 0⟩ j =
          0) ∧
      9 < (⟨17, 0xDE :: 0xAD :: 0x80 :: List.replicate 29 0⟩ :
        UrkelBits).size) ∧
    urkel_bits_join
        (urkel_bits_split ⟨17, 0xDE :: 0xAD :: 0x80 :: List.replicate 29 0⟩
          9).1
        (urkel_bits_split ⟨17, 0xDE :: 0xAD :: 0x80 :: List.replicate 29 0⟩
          9).2
        (urkel_bits_get ⟨17, 0xDE :: 0xAD :: 0x80 :: List.replicate 29 0⟩ 9) =
      ⟨17, 0xDE :: 0xAD :: 0x80 :: List.replicate 29 0⟩ :=
  ⟨⟨by decide, by decide, by decide⟩,
   (bits_split_join_inverse ⟨17, 0xDE :: 0xAD :: 0x80 :: List.replicate 29 0⟩
     9 (by decide) (by decide) (by decide)).2⟩
